import Mathlib

/-!
Verification of the ambiway capture-to-color pipeline (src/main.rs).

Shallow embedding of the pure core of `src/main.rs`:

* `calculate_regions` / `monitorRegions` — the geometry engine that turns
  monitor dimensions, per-edge LED counts and indents into sampling
  rectangles (`calculate_regions`, main.rs lines 229-310);
* `round_rgb`, `average_rgb`, `get_average_colors` — the color extractor
  (main.rs lines 172-227);
* `tickUpdate` — the per-tick state update of the main loop
  (main.rs lines 367-397);
* `updateShared` / `readShared` — the effect of one capture-thread cycle on
  the shared frame slot of `VideoCaptureAsync` (main.rs lines 76-123).

Modelling conventions:

* `f32` arithmetic is modelled by exact rational arithmetic (`ℚ`);
  `f32::round` (round half away from zero) is `rustRound`, and the
  `i32 as f32` conversion (round to nearest, ties to even) is `i32_to_f32`.
  Wherever a statement quantifies over inputs, its hypotheses keep the
  inputs inside the range on which the remaining exact-`ℚ` operations agree
  with their `f32` counterparts; the concrete inputs appearing below are
  `f32`-exact.
* the Rust casts `as u8` / `as i32` applied to a rounded float saturate; the
  `u8` saturation is modelled in `f32_to_u8`, while the `i32` cast is the
  identity for every value considered here and is modelled as such.
* `u16` arithmetic inside `average_rgb` cannot overflow (sums of two `u8`);
  the final `as u8` truncating cast is kept as `% 256`.
* an OpenCV `Mat` frame is modelled by its three channel planes
  (`B`, `G`, `R`), each a function `ℤ → ℤ → ℚ`; `core::mean` over a ROI is
  `regionMean` (sum over the pixel rectangle divided by its area).
* slice indexing `xs[i]` of the source is modelled with `List.getD`; the
  source panics on out-of-range indices, a case none of the statements
  below depend on.
-/

namespace Ambiway

/-- Monitor resolution, mirroring `struct MonitorRes { width, height : i32 }`. -/
structure MonitorRes where
  width : Int
  height : Int
deriving DecidableEq

/-- A sampling rectangle `[x1, y1, x2, y2] : [i32; 4]`. -/
structure Rect where
  x1 : Int
  y1 : Int
  x2 : Int
  y2 : Int
deriving DecidableEq

/-- An `[u8; 3]` color in `[r, g, b]` order. -/
structure Rgb where
  r : ℕ
  g : ℕ
  b : ℕ
deriving DecidableEq

/-- `f32::round`: round half away from zero, on the exact rational model. -/
def rustRound (q : ℚ) : Int :=
  if 0 ≤ q then ⌊q + 1/2⌋ else -⌊-q + 1/2⌋

/-- The Rust cast `as u8` applied to a (rounded) float: saturating. -/
def f32_to_u8 (q : ℚ) : ℕ :=
  (min 255 (max 0 (rustRound q))).toNat

/-- `round_rgb(r, g, b, brightness)` from main.rs lines 172-178:
scale each channel by `brightness`, round, and saturate to `u8`. -/
def round_rgb (r g b brightness : ℚ) : Rgb :=
  ⟨f32_to_u8 (r * brightness), f32_to_u8 (g * brightness), f32_to_u8 (b * brightness)⟩

/-- `average_rgb(rgb1, rgb2)` from main.rs lines 181-187: per channel,
`((c1 as u16 + c2 as u16) / 2) as u8`.  The division is truncating integer
division; the final `as u8` cast is `% 256` (the identity whenever both
inputs are genuine `u8` values). -/
def average_rgb (c1 c2 : Rgb) : Rgb :=
  ⟨(c1.r + c2.r) / 2 % 256, (c1.g + c2.g) / 2 % 256, (c1.b + c2.b) / 2 % 256⟩

/-- Per-channel arithmetic mean of `core::mean` over the ROI
`Rect::new(x1, y1, x2-x1, y2-y1)`, i.e. pixels `[x1, x2) × [y1, y2)`. -/
def regionMean (ch : ℤ → ℤ → ℚ) (rc : Rect) : ℚ :=
  (∑ x ∈ Finset.Ico rc.x1 rc.x2, ∑ y ∈ Finset.Ico rc.y1 rc.y2, ch x y) /
    (((rc.x2 - rc.x1) * (rc.y2 - rc.y1) : ℤ) : ℚ)

/-- A constant channel plane (used for constant test frames). -/
def constCh (c : ℚ) : ℤ → ℤ → ℚ := fun _ _ => c

/-- The per-region body of `get_average_colors` (main.rs lines 203-216):
the channel means come back in `B, G, R` order and are passed to
`round_rgb` as `(r, g, b, brightness)`. -/
def newColor (chB chG chR : ℤ → ℤ → ℚ) (rc : Rect) (brightness : ℚ) : Rgb :=
  round_rgb (regionMean chR rc) (regionMean chG rc) (regionMean chB rc) brightness

/-- The smoothing step of `get_average_colors` (main.rs lines 218-222):
blend with `previous_avg_colors[i]`, or with black when the previous list
is empty. -/
def smoothColor (previous : List Rgb) (i : ℕ) (rounded : Rgb) : Rgb :=
  if previous.isEmpty then average_rgb ⟨0, 0, 0⟩ rounded
  else average_rgb (previous.getD i ⟨0, 0, 0⟩) rounded

/-- The `for (i, region) in regions.iter().enumerate()` loop of
`get_average_colors`, carrying the running index `i`. -/
def getAverageColorsGo (chB chG chR : ℤ → ℤ → ℚ) (previous : List Rgb)
    (brightness : ℚ) : List Rect → ℕ → List Rgb
  | [], _ => []
  | rc :: rest, i =>
      smoothColor previous i (newColor chB chG chR rc brightness) ::
        getAverageColorsGo chB chG chR previous brightness rest (i + 1)

/-- `get_average_colors(regions, cap, previous_avg_colors, brightness)`
(main.rs lines 190-227).  `ret` and the three channel planes stand for the
`(ret, img)` pair returned by `cap.read()`; when `ret` is false the function
returns the empty list at once. -/
def get_average_colors (ret : Bool) (chB chG chR : ℤ → ℤ → ℚ)
    (regions : List Rect) (previous : List Rgb) (brightness : ℚ) : List Rgb :=
  if !ret then [] else getAverageColorsGo chB chG chR previous brightness regions 0

/-- The boundary expression of every edge walk in `calculate_regions`
(e.g. main.rs line 262): `(step * a as f32).round() as i32 + indent`. -/
def boundaryValue (step : ℚ) (indent : Int) (a : ℕ) : Int :=
  rustRound (step * a) + indent

/-- One edge walk of `calculate_regions`: the loop
`for a in 0..=n { value = boundary(a); if a > 0 { push(mk(b, value)) }; b = value }`.
Since the running variable `b` always equals the boundary value of the
previous iteration, the walk emits `mk (value a) (value (a+1))` for
`a = 0, …, n-1`. -/
def edgeRects (value : ℕ → Int) (mk : Int → Int → Rect) (n : ℕ) : List Rect :=
  (List.range n).map fun a => mk (value a) (value (a + 1))

/-- The per-monitor body of `calculate_regions` (main.rs lines 243-306):
left edge bottom-to-top, then top edge left-to-right, then right edge
top-to-bottom, then bottom edge right-to-left.  LED counts are modelled as
`ℕ` (a non-positive `i32` count makes the source range `0..=n` empty, like
`0`).  When a count is `0` the step divides by zero; in `f32` this yields
`inf`, in `ℚ` it yields `0`, and in both cases the walk emits no rectangle,
so the divergence never reaches the output. -/
def monitorRegions (m : MonitorRes) (leftLed upLed rightLed downLed : ℕ)
    (leftIndent upIndent rightIndent downIndent : Int) (size : Int) : List Rect :=
  let innerWidth : Int := m.width - leftIndent - rightIndent
  let innerHeight : Int := m.height - upIndent - downIndent
  let mainWidth : Int := m.width
  let mainHeight : Int := m.height
  let leftStep : ℚ := (innerHeight : ℚ) / (leftLed : ℚ)
  let upStep : ℚ := (innerWidth : ℚ) / (upLed : ℚ)
  let rightStep : ℚ := (innerHeight : ℚ) / (rightLed : ℚ)
  let downStep : ℚ := (innerWidth : ℚ) / (downLed : ℚ)
  edgeRects (boundaryValue leftStep downIndent)
      (fun b v => ⟨0, innerHeight - v, size, innerHeight - b⟩) leftLed
    ++ edgeRects (boundaryValue upStep leftIndent)
      (fun b v => ⟨b, 0, v, size⟩) upLed
    ++ edgeRects (boundaryValue rightStep upIndent)
      (fun b v => ⟨mainWidth - size, b, mainWidth, v⟩) rightLed
    ++ edgeRects (boundaryValue downStep rightIndent)
      (fun b v => ⟨innerWidth - v, mainHeight - size, innerWidth - b, mainHeight⟩) downLed

/-- `calculate_regions` (main.rs lines 229-310): one region list per
monitor, the per-monitor configuration arrays indexed positionally. -/
def calculate_regions (monitors : List MonitorRes)
    (left_led up_led right_led down_led : List ℕ)
    (left_indent up_indent right_indent down_indent : List Int)
    (size : Int) : List (List Rect) :=
  (List.range monitors.length).map fun i =>
    monitorRegions (monitors.getD i ⟨0, 0⟩)
      (left_led.getD i 0) (up_led.getD i 0) (right_led.getD i 0) (down_led.getD i 0)
      (left_indent.getD i 0) (up_indent.getD i 0) (right_indent.getD i 0)
      (down_indent.getD i 0) size

/-- `r.unwrap_or_default()` applied to each extraction result in the main
loop (main.rs line 378): an extraction error becomes the empty color list. -/
def unwrapOrDefault (res : Except String (List Rgb)) : List Rgb :=
  match res with
  | .ok v => v
  | .error _ => []

/-- The `for (i, res) in results.iter().enumerate() { avg_colors[i] = res }`
loop of the main loop (main.rs lines 381-383), carrying the running index. -/
def setAllFrom : List (List Rgb) → ℕ → List (List Rgb) → List (List Rgb)
  | avg, _, [] => avg
  | avg, i, res :: rest => setAllFrom (avg.set i res) (i + 1) rest

/-- One tick's update of the stored `avg_colors` state by the main loop
(main.rs lines 378-383): unwrap each pipeline's result (errors default to
the empty list) and overwrite the stored entry positionally. -/
def tickUpdate (avgColors : List (List Rgb))
    (results : List (Except String (List Rgb))) : List (List Rgb) :=
  setAllFrom avgColors 0 (results.map unwrapOrDefault)

/-- The shared slot of `VideoCaptureAsync`:
`struct Shared { frame: Arc<Mat>, ret: bool }`. -/
structure SharedState (F : Type) where
  frame : F
  ret : Bool
deriving DecidableEq

/-- The effect of one capture-thread cycle on the shared slot
(main.rs lines 97-109): on `Ok(r)` set `ret := r` and replace the frame only
when `r` is true; on `Err(_)` set `ret := false` and keep the frame. -/
def updateShared {F E : Type} (s : SharedState F) (res : Except E (Bool × F)) :
    SharedState F :=
  match res with
  | .ok (r, mat) => { frame := if r then mat else s.frame, ret := r }
  | .error _ => { frame := s.frame, ret := false }

/-- `VideoCaptureAsync::read` (main.rs lines 120-123): return the current
status and a clone of the current frame. -/
def readShared {F : Type} (s : SharedState F) : Bool × F :=
  (s.ret, s.frame)

/-- Modelled from the spec: the *rejected* alternative rounding policy the
spec contrasts with (`cumulative-delta rounding`): accumulate the rounded
per-LED delta `round(step)` instead of rounding the cumulative product. -/
def accumBoundary (step : ℚ) (indent : Int) (a : ℕ) : Int :=
  (a : Int) * rustRound step + indent

/-- Number of significand bits a magnitude `m` in the `i32` range exceeds
the 24-bit `f32` significand by: `0` below `2^24`, up to `8` at `2^31`. -/
def f32ExcessBits (m : ℕ) : ℕ :=
  if m < 2 ^ 24 then 0
  else if m < 2 ^ 25 then 1
  else if m < 2 ^ 26 then 2
  else if m < 2 ^ 27 then 3
  else if m < 2 ^ 28 then 4
  else if m < 2 ^ 29 then 5
  else if m < 2 ^ 30 then 6
  else if m < 2 ^ 31 then 7
  else 8

/-- Round `m` to the nearest multiple of `2^k`, ties to even, as IEEE-754
round-to-nearest does on the significand. -/
def roundHalfEven (m k : ℕ) : ℕ :=
  let d := 2 ^ k
  let q := m / d
  let r := m % d
  if 2 * r < d then q * d
  else if d < 2 * r then (q + 1) * d
  else if q % 2 = 0 then q * d else (q + 1) * d

/-- The Rust cast `as f32` applied to an `i32` (as in
`inner_height as f32`, main.rs lines 251-254): round to nearest `f32`,
ties to even.  For `|z| ≤ 2^31` the resulting `f32` value is an integer,
namely `|z|` rounded to 24 significand bits; below `2^24` the conversion
is exact. -/
def i32_to_f32 (z : ℤ) : ℤ :=
  if 0 ≤ z then (roundHalfEven z.natAbs (f32ExcessBits z.natAbs) : ℤ)
  else -(roundHalfEven z.natAbs (f32ExcessBits z.natAbs) : ℤ)


lemma rustRound_nonneg_eq {q : ℚ} (h : 0 ≤ q) : rustRound q = ⌊q + 1/2⌋ := by
  simp [rustRound, h]

lemma rustRound_intCast (z : ℤ) : rustRound (z : ℚ) = z := by
  rcases le_or_lt 0 (z : ℚ) with h | h
  · rw [rustRound_nonneg_eq h, Int.floor_int_add]
    norm_num
  · have : ¬ (0 : ℚ) ≤ (z : ℚ) := not_le.mpr h
    rw [rustRound, if_neg this]
    rw [show (-(z : ℚ) + 1/2) = ((-z : ℤ) : ℚ) + 1/2 by push_cast; ring, Int.floor_int_add]
    norm_num

lemma rustRound_eq_of {q : ℚ} {z : ℤ} (h0 : 0 ≤ q) (h1 : (z : ℚ) ≤ q + 1/2)
    (h2 : q + 1/2 < z + 1) : rustRound q = z := by
  rw [rustRound_nonneg_eq h0]
  exact Int.floor_eq_iff.mpr ⟨h1, h2⟩

lemma rustRound_mono_of_nonneg {q r : ℚ} (h0 : 0 ≤ q) (h : q ≤ r) :
    rustRound q ≤ rustRound r := by
  rw [rustRound_nonneg_eq h0, rustRound_nonneg_eq (h0.trans h)]
  exact Int.floor_le_floor (by linarith)

lemma rustRound_le_neg_one {q : ℚ} (h : q ≤ -(1/2)) : rustRound q ≤ -1 := by
  have hneg : ¬ (0 : ℚ) ≤ q := by linarith
  rw [rustRound, if_neg hneg]
  have : (1 : ℤ) ≤ ⌊-q + 1/2⌋ := Int.le_floor.mpr (by push_cast; linarith)
  omega

lemma boundaryValue_lt_succ {step : ℚ} (h : 1 ≤ step) (ind : ℤ) (a : ℕ) :
    boundaryValue step ind a < boundaryValue step ind (a + 1) := by
  unfold boundaryValue
  have h0 : (0 : ℚ) ≤ step * a := by positivity
  have key : rustRound (step * a) < rustRound (step * (a + 1)) := by
    rw [rustRound_nonneg_eq h0, rustRound_nonneg_eq (by positivity)]
    have : step * a + 1/2 + 1 ≤ step * (a + 1) + 1/2 := by nlinarith
    calc ⌊step * a + 1/2⌋ < ⌊step * a + 1/2⌋ + 1 := by omega
      _ = ⌊step * a + 1/2 + 1⌋ := by rw [show step * a + 1/2 + 1 = step * a + 1/2 + (1 : ℤ) by push_cast; ring, Int.floor_add_int]
      _ ≤ ⌊step * (a + 1) + 1/2⌋ := Int.floor_le_floor this
  push_cast
  omega

lemma edgeRects_length (value : ℕ → Int) (mk : Int → Int → Rect) (n : ℕ) :
    (edgeRects value mk n).length = n := by
  simp [edgeRects]

lemma edgeRects_getD (value : ℕ → Int) (mk : Int → Int → Rect) {n k : ℕ}
    (h : k < n) (d : Rect) :
    (edgeRects value mk n).getD k d = mk (value k) (value (k + 1)) := by
  rw [List.getD_eq_getElem _ _ (by simpa [edgeRects_length] using h)]
  simp [edgeRects]


lemma rustRound_ofNat (n : ℕ) : rustRound (n : ℚ) = n := by
  simpa using rustRound_intCast (n : ℤ)

lemma monitorRegions_length (m : MonitorRes) (lL uL rL dL : ℕ)
    (lI uI rI dI size : Int) :
    (monitorRegions m lL uL rL dL lI uI rI dI size).length = lL + uL + rL + dL := by
  simp [monitorRegions, edgeRects]
  omega

lemma monitorRegions_getD_left (m : MonitorRes) (lL uL rL dL : ℕ)
    (lI uI rI dI size : Int) (k : ℕ) (hk : k < lL) (d : Rect) :
    (monitorRegions m lL uL rL dL lI uI rI dI size).getD k d =
      ⟨0, (m.height - uI - dI) -
            boundaryValue (((m.height - uI - dI : ℤ) : ℚ) / (lL : ℚ)) dI (k + 1),
        size, (m.height - uI - dI) -
            boundaryValue (((m.height - uI - dI : ℤ) : ℚ) / (lL : ℚ)) dI k⟩ := by
  simp only [monitorRegions]
  rw [List.append_assoc, List.append_assoc]
  rw [List.getD_append _ _ _ _ (by simpa [edgeRects_length] using hk)]
  rw [edgeRects_getD _ _ hk]

lemma monitorRegions_getD_up (m : MonitorRes) (lL uL rL dL : ℕ)
    (lI uI rI dI size : Int) (k : ℕ) (hk : k < uL) (d : Rect) :
    (monitorRegions m lL uL rL dL lI uI rI dI size).getD (lL + k) d =
      ⟨boundaryValue (((m.width - lI - rI : ℤ) : ℚ) / (uL : ℚ)) lI k, 0,
        boundaryValue (((m.width - lI - rI : ℤ) : ℚ) / (uL : ℚ)) lI (k + 1), size⟩ := by
  simp only [monitorRegions]
  rw [List.append_assoc, List.append_assoc]
  rw [List.getD_append_right _ _ _ _ (by simp [edgeRects_length])]
  simp only [edgeRects_length, Nat.add_sub_cancel_left]
  rw [List.getD_append _ _ _ _ (by simpa [edgeRects_length] using hk)]
  rw [edgeRects_getD _ _ hk]

lemma monitorRegions_getD_right (m : MonitorRes) (lL uL rL dL : ℕ)
    (lI uI rI dI size : Int) (k : ℕ) (hk : k < rL) (d : Rect) :
    (monitorRegions m lL uL rL dL lI uI rI dI size).getD (lL + uL + k) d =
      ⟨m.width - size,
        boundaryValue (((m.height - uI - dI : ℤ) : ℚ) / (rL : ℚ)) uI k,
        m.width,
        boundaryValue (((m.height - uI - dI : ℤ) : ℚ) / (rL : ℚ)) uI (k + 1)⟩ := by
  simp only [monitorRegions]
  rw [List.append_assoc, List.append_assoc]
  rw [List.getD_append_right _ _ _ _ (by simp [edgeRects_length]; omega)]
  simp only [edgeRects_length]
  rw [show lL + uL + k - lL = uL + k by omega]
  rw [List.getD_append_right _ _ _ _ (by simp [edgeRects_length])]
  simp only [edgeRects_length, Nat.add_sub_cancel_left]
  rw [List.getD_append _ _ _ _ (by simpa [edgeRects_length] using hk)]
  rw [edgeRects_getD _ _ hk]

lemma monitorRegions_getD_down (m : MonitorRes) (lL uL rL dL : ℕ)
    (lI uI rI dI size : Int) (k : ℕ) (hk : k < dL) (d : Rect) :
    (monitorRegions m lL uL rL dL lI uI rI dI size).getD (lL + uL + rL + k) d =
      ⟨(m.width - lI - rI) -
          boundaryValue (((m.width - lI - rI : ℤ) : ℚ) / (dL : ℚ)) rI (k + 1),
        m.height - size,
        (m.width - lI - rI) -
          boundaryValue (((m.width - lI - rI : ℤ) : ℚ) / (dL : ℚ)) rI k,
        m.height⟩ := by
  simp only [monitorRegions]
  rw [List.append_assoc, List.append_assoc]
  rw [List.getD_append_right _ _ _ _ (by simp [edgeRects_length]; omega)]
  simp only [edgeRects_length]
  rw [show lL + uL + rL + k - lL = uL + (rL + k) by omega]
  rw [List.getD_append_right _ _ _ _ (by simp [edgeRects_length])]
  simp only [edgeRects_length, Nat.add_sub_cancel_left]
  rw [List.getD_append_right _ _ _ _ (by simp [edgeRects_length])]
  simp only [edgeRects_length, Nat.add_sub_cancel_left]
  rw [edgeRects_getD _ _ hk]

lemma monitorRegions_nondegenerate (m : MonitorRes) (lL uL rL dL : ℕ)
    (lI uI rI dI size : Int) (hsize : 0 < size)
    (hl : 1 ≤ ((m.height - uI - dI : ℤ) : ℚ) / (lL : ℚ))
    (hu : 1 ≤ ((m.width - lI - rI : ℤ) : ℚ) / (uL : ℚ))
    (hr : 1 ≤ ((m.height - uI - dI : ℤ) : ℚ) / (rL : ℚ))
    (hd : 1 ≤ ((m.width - lI - rI : ℤ) : ℚ) / (dL : ℚ)) :
    ∀ rc ∈ monitorRegions m lL uL rL dL lI uI rI dI size,
      rc.x1 < rc.x2 ∧ rc.y1 < rc.y2 := by
  intro rc hrc
  simp only [monitorRegions, edgeRects, List.mem_append, List.mem_map,
    List.mem_range] at hrc
  rcases hrc with ((⟨a, _, rfl⟩ | ⟨a, _, rfl⟩) | ⟨a, _, rfl⟩) | ⟨a, _, rfl⟩
  · have h := boundaryValue_lt_succ hl dI a
    exact ⟨hsize, by dsimp only; omega⟩
  · have h := boundaryValue_lt_succ hu lI a
    exact ⟨by dsimp only; omega, hsize⟩
  · have h := boundaryValue_lt_succ hr uI a
    exact ⟨by dsimp only; omega, by dsimp only; omega⟩
  · have h := boundaryValue_lt_succ hd rI a
    exact ⟨by dsimp only; omega, by dsimp only; omega⟩

lemma regionMean_const (c : ℚ) (rc : Rect) (hx : rc.x1 < rc.x2) (hy : rc.y1 < rc.y2) :
    regionMean (constCh c) rc = c := by
  unfold regionMean constCh
  rw [Finset.sum_const, Finset.sum_const, Int.card_Ico, Int.card_Ico,
    smul_smul, nsmul_eq_mul]
  have hx2 : (((rc.x2 - rc.x1).toNat : ℕ) : ℚ) = ((rc.x2 - rc.x1 : ℤ) : ℚ) := by
    exact_mod_cast Int.toNat_of_nonneg (show (0 : ℤ) ≤ rc.x2 - rc.x1 by omega)
  have hy2 : (((rc.y2 - rc.y1).toNat : ℕ) : ℚ) = ((rc.y2 - rc.y1 : ℤ) : ℚ) := by
    exact_mod_cast Int.toNat_of_nonneg (show (0 : ℤ) ≤ rc.y2 - rc.y1 by omega)
  have hA : (((rc.x2 - rc.x1).toNat * (rc.y2 - rc.y1).toNat : ℕ) : ℚ) =
      (((rc.x2 - rc.x1) * (rc.y2 - rc.y1) : ℤ) : ℚ) := by
    rw [Nat.cast_mul, hx2, hy2, Int.cast_mul]
  have hX : (((rc.x2 - rc.x1) * (rc.y2 - rc.y1) : ℤ) : ℚ) ≠ 0 := by
    rw [Int.cast_ne_zero]
    have : (0 : ℤ) < (rc.x2 - rc.x1) * (rc.y2 - rc.y1) :=
      mul_pos (by omega) (by omega)
    omega
  rw [hA, mul_comm, mul_div_assoc, div_self hX, mul_one]


lemma smoothColor_eq (previous : List Rgb) (i : ℕ) (c : Rgb) :
    smoothColor previous i c =
      average_rgb (if previous.isEmpty then ⟨0, 0, 0⟩ else previous.getD i ⟨0, 0, 0⟩) c := by
  unfold smoothColor
  split <;> simp_all

lemma getAverageColorsGo_getD (chB chG chR : ℤ → ℤ → ℚ) (prev : List Rgb)
    (br : ℚ) (d : Rgb) (dR : Rect) :
    ∀ (regions : List Rect) (i0 k : ℕ), k < regions.length →
      (getAverageColorsGo chB chG chR prev br regions i0).getD k d =
        smoothColor prev (i0 + k) (newColor chB chG chR (regions.getD k dR) br) := by
  intro regions
  induction regions with
  | nil => intro i0 k h; simp at h
  | cons rc rest ih =>
    intro i0 k h
    cases k with
    | zero => simp [getAverageColorsGo]
    | succ k =>
      simp only [getAverageColorsGo, List.getD_cons_succ]
      rw [ih (i0 + 1) k (by simpa using h)]
      rw [show i0 + 1 + k = i0 + (k + 1) by omega]

lemma getAverageColorsGo_const (b g r br : ℚ) :
    ∀ (regions : List Rect) (i : ℕ),
      (∀ rc ∈ regions, rc.x1 < rc.x2 ∧ rc.y1 < rc.y2) →
      getAverageColorsGo (constCh b) (constCh g) (constCh r) [] br regions i =
        List.replicate regions.length (average_rgb ⟨0, 0, 0⟩ (round_rgb r g b br)) := by
  intro regions
  induction regions with
  | nil => intro i _; rfl
  | cons rc rest ih =>
    intro i h
    have hrc := h rc (by simp)
    simp only [getAverageColorsGo, List.length_cons, List.replicate_succ]
    rw [ih (i + 1) (fun x hx => h x (by simp [hx]))]
    congr 1
    simp [smoothColor, newColor, regionMean_const _ _ hrc.1 hrc.2]

lemma take_set_succ {α : Type} : ∀ (l : List α) (i : ℕ) (y : α), i < l.length →
    (l.set i y).take (i + 1) = l.take i ++ [y] := by
  intro l
  induction l with
  | nil => intro i y h; simp at h
  | cons a as ih =>
    intro i y h
    cases i with
    | zero => simp
    | succ i =>
      simp only [List.set_cons_succ, List.take_succ_cons, List.cons_append]
      rw [ih i y (by simpa using h)]

lemma setAllFrom_eq : ∀ (ys : List (List Rgb)) (i : ℕ) (avg : List (List Rgb)),
    avg.length = i + ys.length → setAllFrom avg i ys = avg.take i ++ ys := by
  intro ys
  induction ys with
  | nil =>
    intro i avg h
    simp only [List.length_nil] at h
    simp only [setAllFrom, List.append_nil]
    rw [List.take_of_length_le (by omega)]
  | cons y ys ih =>
    intro i avg h
    simp only [setAllFrom]
    rw [ih (i + 1) (avg.set i y) (by simp only [List.length_set]; simp at h; omega)]
    rw [take_set_succ avg i y (by simp at h; omega)]
    simp

lemma tickUpdate_eq (avg : List (List Rgb)) (results : List (Except String (List Rgb)))
    (h : results.length = avg.length) :
    tickUpdate avg results = results.map unwrapOrDefault := by
  unfold tickUpdate
  rw [setAllFrom_eq _ 0 _ (by simp [h])]
  simp

lemma f32_to_u8_natCast (n : ℕ) (h : n ≤ 255) : f32_to_u8 (n : ℚ) = n := by
  unfold f32_to_u8
  rw [rustRound_ofNat]
  simp only [min_def, max_def]
  split <;> split <;> omega

lemma round_rgb_red : round_rgb 255 0 0 1 = ⟨255, 0, 0⟩ := by
  unfold round_rgb
  rw [mul_one, mul_one]
  rw [show (255 : ℚ) = ((255 : ℕ) : ℚ) by norm_num,
    show (0 : ℚ) = ((0 : ℕ) : ℚ) by norm_num]
  rw [f32_to_u8_natCast 255 (by omega), f32_to_u8_natCast 0 (by omega)]


lemma boundaryValue_eq_of (step : ℚ) (ind : ℤ) (a : ℕ) (z : ℤ)
    (h0 : 0 ≤ step * a) (h1 : (z : ℚ) ≤ step * a + 1/2)
    (h2 : step * a + 1/2 < z + 1) : boundaryValue step ind a = z + ind := by
  unfold boundaryValue
  rw [rustRound_eq_of h0 h1 h2]

lemma boundaryValue_int (step : ℚ) (d ind : ℤ) (a : ℕ) (h : step * a = (d : ℚ)) :
    boundaryValue step ind a = d + ind := by
  unfold boundaryValue
  rw [h, rustRound_intCast]

/-- C2: each boundary of an edge walk is `round(step * a) + indent`, rounded
independently from the cumulative product `step * a`; for `n = 3`,
`inner_span = 10` the boundaries at `a = 1, 2, 3` are `3, 7, 10`, whereas
accumulating the rounded per-LED delta (`accumBoundary`, the policy the spec
rules out) would give `3, 6, 9`. -/
theorem C2_independent_rounding :
    (boundaryValue ((10 : ℚ) / 3) 0 1 = 3 ∧ boundaryValue ((10 : ℚ) / 3) 0 2 = 7 ∧
      boundaryValue ((10 : ℚ) / 3) 0 3 = 10)
    ∧ (accumBoundary ((10 : ℚ) / 3) 0 1 = 3 ∧ accumBoundary ((10 : ℚ) / 3) 0 2 = 6 ∧
      accumBoundary ((10 : ℚ) / 3) 0 3 = 9)
    ∧ boundaryValue ((10 : ℚ) / 3) 0 2 ≠ accumBoundary ((10 : ℚ) / 3) 0 2 := by
  have hr : rustRound ((10 : ℚ) / 3) = 3 :=
    rustRound_eq_of (by norm_num) (by norm_num) (by norm_num)
  have h1 : boundaryValue ((10 : ℚ) / 3) 0 1 = 3 := by
    have := boundaryValue_eq_of ((10 : ℚ) / 3) 0 1 3 (by norm_num) (by norm_num)
      (by norm_num)
    omega
  have h2 : boundaryValue ((10 : ℚ) / 3) 0 2 = 7 := by
    have := boundaryValue_eq_of ((10 : ℚ) / 3) 0 2 7 (by norm_num) (by norm_num)
      (by norm_num)
    omega
  have h3 : boundaryValue ((10 : ℚ) / 3) 0 3 = 10 := by
    have := boundaryValue_eq_of ((10 : ℚ) / 3) 0 3 10 (by norm_num) (by norm_num)
      (by norm_num)
    omega
  have a1 : accumBoundary ((10 : ℚ) / 3) 0 1 = 3 := by
    unfold accumBoundary
    rw [hr]
    norm_num
  have a2 : accumBoundary ((10 : ℚ) / 3) 0 2 = 6 := by
    unfold accumBoundary
    rw [hr]
    norm_num
  have a3 : accumBoundary ((10 : ℚ) / 3) 0 3 = 9 := by
    unfold accumBoundary
    rw [hr]
    norm_num
  exact ⟨⟨h1, h2, h3⟩, ⟨a1, a2, a3⟩, by omega⟩

lemma f32ExcessBits_eq_zero {m : ℕ} (h : m < 2 ^ 24) : f32ExcessBits m = 0 := by
  unfold f32ExcessBits
  rw [if_pos h]

lemma roundHalfEven_zero (m : ℕ) : roundHalfEven m 0 = m := by
  simp [roundHalfEven, Nat.mod_one, Nat.div_one]

lemma i32_to_f32_of_small {z : ℤ} (h0 : 0 ≤ z) (h : z < 2 ^ 24) :
    i32_to_f32 z = z := by
  unfold i32_to_f32
  rw [if_pos h0]
  rw [f32ExcessBits_eq_zero (by omega), roundHalfEven_zero]
  omega

/-- C3 (counterexample): at monitor span `2^24 + 1 = 16777217` with one LED
and indent 0 — an input the original claim quantifies over — the `i32` to
`f32` conversion of the span rounds to `16777216` (round to nearest, ties
to even), so the boundary the program computes at `a = n = 1` is
`16777216`, not the inner span: the last boundary falls short of the span. -/
theorem C3_f32_conversion_counterexample :
    i32_to_f32 16777217 = 16777216
    ∧ boundaryValue (((i32_to_f32 16777217 : ℤ) : ℚ) / ((1 : ℕ) : ℚ)) 0 1 = 16777216
    ∧ (16777216 : ℤ) ≠ 16777217 := by
  have hc : i32_to_f32 16777217 = 16777216 := by decide
  refine ⟨hc, ?_, by norm_num⟩
  rw [hc]
  have := boundaryValue_int (((16777216 : ℤ) : ℚ) / ((1 : ℕ) : ℚ)) 16777216 0 1
    (by norm_num)
  omega

/-- C3 (amended): for every edge span with `0 < span < 2^22` and every LED
count `n > 0`, with indent 0: the `i32` to `f32` conversion of the span is
exact, the boundary sequence `a ↦ round(step * a)` computed by the edge
walks is monotonically non-decreasing, and the boundary at `a = n` equals
the span (no gap, no overflow past the edge).  The division and
multiplication are modelled exactly over `ℚ`; below `2^22` their `f32`
rounding errors total less than `span * 2^-23 * (1 + 2^-24) < 1/2`, so the
final `round` absorbs them and the `f32` program computes the same last
boundary.  Beyond the `f32`-exact range the property fails in the program
(see the counterexample at `2^24 + 1`). -/
theorem C3_boundaries_monotone_cover (span : ℤ) (n : ℕ)
    (hspan : 0 < span) (hrange : span < 2 ^ 22) (hn : 0 < n) :
    i32_to_f32 span = span
    ∧ (∀ a b : ℕ, a ≤ b →
      boundaryValue (((i32_to_f32 span : ℤ) : ℚ) / (n : ℚ)) 0 a ≤
        boundaryValue (((i32_to_f32 span : ℤ) : ℚ) / (n : ℚ)) 0 b)
    ∧ boundaryValue (((i32_to_f32 span : ℤ) : ℚ) / (n : ℚ)) 0 n = span := by
  have he : i32_to_f32 span = span := i32_to_f32_of_small hspan.le (by omega)
  rw [he]
  have hspanQ : (0 : ℚ) ≤ (span : ℚ) := by exact_mod_cast hspan.le
  have hnQ : (0 : ℚ) < (n : ℚ) := by exact_mod_cast hn
  have hstep : (0 : ℚ) ≤ (span : ℚ) / (n : ℚ) := div_nonneg hspanQ hnQ.le
  refine ⟨rfl, ?_, ?_⟩
  · intro a b hab
    unfold boundaryValue
    have h0 : (0 : ℚ) ≤ (span : ℚ) / (n : ℚ) * a :=
      mul_nonneg hstep (by positivity)
    have hle : (span : ℚ) / (n : ℚ) * a ≤ (span : ℚ) / (n : ℚ) * b :=
      mul_le_mul_of_nonneg_left (by exact_mod_cast hab) hstep
    have := rustRound_mono_of_nonneg h0 hle
    omega
  · unfold boundaryValue
    rw [div_mul_cancel₀ (span : ℚ) (by positivity)]
    rw [rustRound_intCast]
    omega

/-- C3 witness at span 10, n 3. -/
theorem C3_boundaries_monotone_cover_witness :
    i32_to_f32 10 = 10
    ∧ (boundaryValue (((i32_to_f32 10 : ℤ) : ℚ) / ((3 : ℕ) : ℚ)) 0 1 ≤
      boundaryValue (((i32_to_f32 10 : ℤ) : ℚ) / ((3 : ℕ) : ℚ)) 0 2)
    ∧ boundaryValue (((i32_to_f32 10 : ℤ) : ℚ) / ((3 : ℕ) : ℚ)) 0 3 = 10 := by
  have h := C3_boundaries_monotone_cover 10 3 (by norm_num) (by norm_num)
    (by norm_num)
  exact ⟨h.1, h.2.1 1 2 (by norm_num), h.2.2⟩

/-- C4 (counterexample): a tick whose extraction returned the empty sequence
does not retain the stored previous colors: the stored state `[[100,0,0]]`
is overwritten with `[[]]`, which differs from it. -/
theorem C4_prev_not_retained :
    tickUpdate [[(⟨100, 0, 0⟩ : Rgb)]] [Except.ok []] = [[]] ∧
    ([[]] : List (List Rgb)) ≠ [[(⟨100, 0, 0⟩ : Rgb)]] := by
  constructor
  · rfl
  · decide

/-- C4 (amended): the main loop overwrites the stored previous colors with
the unwrapped extraction results each tick (so an empty result replaces the
previous colors with the empty list, making the next successful tick blend
against black), and an extraction error is mapped to the empty output
rather than propagating out of the loop. -/
theorem C4_state_overwritten (avg : List (List Rgb))
    (results : List (Except String (List Rgb)))
    (h : results.length = avg.length) :
    tickUpdate avg results = results.map unwrapOrDefault
    ∧ ∀ e : String, unwrapOrDefault (Except.error e) = [] :=
  ⟨tickUpdate_eq avg results h, fun _ => rfl⟩

/-- C4 witness. -/
theorem C4_state_overwritten_witness :
    tickUpdate [[(⟨100, 0, 0⟩ : Rgb)]] [Except.error "read failed"] =
      [Except.error "read failed"].map unwrapOrDefault
    ∧ ∀ e : String, unwrapOrDefault (Except.error e) = [] :=
  C4_state_overwritten [[⟨100, 0, 0⟩]] [Except.error "read failed"] rfl

/-- C9: whenever the frame source reports no valid frame (`ret = false`),
the extractor returns the empty sequence at once, whatever the regions,
previous colors or brightness. -/
theorem C9_invalid_frame_empty (chB chG chR : ℤ → ℤ → ℚ) (regions : List Rect)
    (prev : List Rgb) (br : ℚ) :
    get_average_colors false chB chG chR regions prev br = [] := rfl

/-- C10: a failed capture cycle (`Ok(false)` or `Err`) sets only the status
flag and leaves the frame slot unchanged, so a subsequent `read` returns the
last successfully captured frame paired with `false`; the frame slot is
replaced only by a successful read. -/
theorem C10_failed_read_keeps_frame {F E : Type} (s : SharedState F)
    (res : Except E (Bool × F)) :
    (∀ m : F, res = Except.ok (false, m) →
      updateShared s res = ⟨s.frame, false⟩ ∧
        readShared (updateShared s res) = (false, s.frame))
    ∧ (∀ e : E, res = Except.error e →
      updateShared s res = ⟨s.frame, false⟩ ∧
        readShared (updateShared s res) = (false, s.frame))
    ∧ ((updateShared s res).frame = s.frame ∨
      ∃ m : F, res = Except.ok (true, m) ∧ updateShared s res = ⟨m, true⟩) := by
  refine ⟨?_, ?_, ?_⟩
  · rintro m rfl
    exact ⟨rfl, rfl⟩
  · rintro e rfl
    exact ⟨rfl, rfl⟩
  · cases res with
    | error e => exact Or.inl rfl
    | ok p =>
      rcases p with ⟨r, mat⟩
      cases r with
      | false => exact Or.inl rfl
      | true => exact Or.inr ⟨mat, rfl, rfl⟩

/-- C10 witness. -/
theorem C10_failed_read_keeps_frame_witness :
    updateShared (⟨5, true⟩ : SharedState ℕ)
        (Except.ok (false, 9) : Except Unit (Bool × ℕ)) = ⟨5, false⟩ ∧
    readShared (updateShared (⟨5, true⟩ : SharedState ℕ)
        (Except.ok (false, 9) : Except Unit (Bool × ℕ))) = (false, 5) :=
  (C10_failed_read_keeps_frame ⟨5, true⟩ (Except.ok (false, 9))).1 9 rfl


/-- C1: with a valid frame, the emitted color for region `i` is the
per-channel unweighted integer average of the previous tick's color for
region `i` (black when no previous value exists) and the new rounded color;
on genuine `u8` inputs `average_rgb` is exactly the truncating
`(prev + new) / 2`, and `average_rgb (100,0,0) (200,0,0) = (150,0,0)`. -/
theorem C1_smoothing_blend (chB chG chR : ℤ → ℤ → ℚ) (regions : List Rect)
    (prev : List Rgb) (br : ℚ) (i : ℕ) (hi : i < regions.length) :
    ((get_average_colors true chB chG chR regions prev br).getD i ⟨0, 0, 0⟩ =
      average_rgb (if prev.isEmpty then ⟨0, 0, 0⟩ else prev.getD i ⟨0, 0, 0⟩)
        (newColor chB chG chR (regions.getD i ⟨0, 0, 0, 0⟩) br))
    ∧ (∀ c₁ c₂ : Rgb, c₁.r ≤ 255 → c₁.g ≤ 255 → c₁.b ≤ 255 → c₂.r ≤ 255 →
        c₂.g ≤ 255 → c₂.b ≤ 255 →
        average_rgb c₁ c₂ =
          ⟨(c₁.r + c₂.r) / 2, (c₁.g + c₂.g) / 2, (c₁.b + c₂.b) / 2⟩)
    ∧ average_rgb ⟨100, 0, 0⟩ ⟨200, 0, 0⟩ = ⟨150, 0, 0⟩ := by
  refine ⟨?_, ?_, by decide⟩
  · have hgo := getAverageColorsGo_getD chB chG chR prev br ⟨0, 0, 0⟩ ⟨0, 0, 0, 0⟩
      regions 0 i hi
    rw [show get_average_colors true chB chG chR regions prev br =
        getAverageColorsGo chB chG chR prev br regions 0 from rfl]
    rw [hgo, Nat.zero_add, smoothColor_eq]
  · intro c₁ c₂ h1 h2 h3 h4 h5 h6
    unfold average_rgb
    simp only [Rgb.mk.injEq]
    refine ⟨?_, ?_, ?_⟩ <;> omega

/-- C1 witness: one unit region over a constant frame whose red channel is
200, previous output `(100,0,0)`, brightness 1: the emitted color is
`(150,0,0)`. -/
theorem C1_smoothing_blend_witness :
    (get_average_colors true (constCh 0) (constCh 0) (constCh 200)
      [⟨0, 0, 1, 1⟩] [⟨100, 0, 0⟩] 1).getD 0 ⟨0, 0, 0⟩ = ⟨150, 0, 0⟩ := by
  rw [(C1_smoothing_blend (constCh 0) (constCh 0) (constCh 200)
    [⟨0, 0, 1, 1⟩] [⟨100, 0, 0⟩] 1 0 (by simp)).1]
  have hm : newColor (constCh 0) (constCh 0) (constCh 200)
      (([(⟨0, 0, 1, 1⟩ : Rect)] : List Rect).getD 0 ⟨0, 0, 0, 0⟩) 1 = ⟨200, 0, 0⟩ := by
    rw [show ([(⟨0, 0, 1, 1⟩ : Rect)] : List Rect).getD 0 ⟨0, 0, 0, 0⟩ =
        (⟨0, 0, 1, 1⟩ : Rect) from rfl]
    unfold newColor
    rw [regionMean_const 200 ⟨0, 0, 1, 1⟩ (by decide) (by decide),
      regionMean_const 0 ⟨0, 0, 1, 1⟩ (by decide) (by decide)]
    unfold round_rgb
    rw [mul_one, mul_one]
    rw [show (200 : ℚ) = ((200 : ℕ) : ℚ) by norm_num,
      show (0 : ℚ) = ((0 : ℕ) : ℚ) by norm_num]
    rw [f32_to_u8_natCast 200 (by omega), f32_to_u8_natCast 0 (by omega)]
  rw [hm]
  decide

/-- C6: the region list of one monitor walks the left edge bottom-to-top,
then the top edge left-to-right, then the right edge top-to-bottom, then
the bottom edge right-to-left, one rectangle per LED, so its length is the
sum of the four edge LED counts; consecutive rectangles on an edge share a
boundary, and each edge's rectangles are pinned to that edge's strip. -/
theorem C6_wiring_order (m : MonitorRes) (lL uL rL dL : ℕ)
    (lI uI rI dI size : Int) :
    ((monitorRegions m lL uL rL dL lI uI rI dI size).length = lL + uL + rL + dL)
    ∧ (∀ k, k < lL →
        ((monitorRegions m lL uL rL dL lI uI rI dI size).getD k ⟨0, 0, 0, 0⟩).x1 = 0 ∧
        ((monitorRegions m lL uL rL dL lI uI rI dI size).getD k ⟨0, 0, 0, 0⟩).x2 = size)
    ∧ (∀ k, k + 1 < lL →
        ((monitorRegions m lL uL rL dL lI uI rI dI size).getD (k + 1) ⟨0, 0, 0, 0⟩).y2 =
        ((monitorRegions m lL uL rL dL lI uI rI dI size).getD k ⟨0, 0, 0, 0⟩).y1)
    ∧ (∀ k, k < uL →
        ((monitorRegions m lL uL rL dL lI uI rI dI size).getD (lL + k) ⟨0, 0, 0, 0⟩).y1 = 0 ∧
        ((monitorRegions m lL uL rL dL lI uI rI dI size).getD (lL + k) ⟨0, 0, 0, 0⟩).y2 = size)
    ∧ (∀ k, k + 1 < uL →
        ((monitorRegions m lL uL rL dL lI uI rI dI size).getD (lL + (k + 1)) ⟨0, 0, 0, 0⟩).x1 =
        ((monitorRegions m lL uL rL dL lI uI rI dI size).getD (lL + k) ⟨0, 0, 0, 0⟩).x2)
    ∧ (∀ k, k < rL →
        ((monitorRegions m lL uL rL dL lI uI rI dI size).getD (lL + uL + k) ⟨0, 0, 0, 0⟩).x1 =
          m.width - size ∧
        ((monitorRegions m lL uL rL dL lI uI rI dI size).getD (lL + uL + k) ⟨0, 0, 0, 0⟩).x2 =
          m.width)
    ∧ (∀ k, k + 1 < rL →
        ((monitorRegions m lL uL rL dL lI uI rI dI size).getD (lL + uL + (k + 1)) ⟨0, 0, 0, 0⟩).y1 =
        ((monitorRegions m lL uL rL dL lI uI rI dI size).getD (lL + uL + k) ⟨0, 0, 0, 0⟩).y2)
    ∧ (∀ k, k < dL →
        ((monitorRegions m lL uL rL dL lI uI rI dI size).getD (lL + uL + rL + k) ⟨0, 0, 0, 0⟩).y1 =
          m.height - size ∧
        ((monitorRegions m lL uL rL dL lI uI rI dI size).getD (lL + uL + rL + k) ⟨0, 0, 0, 0⟩).y2 =
          m.height)
    ∧ (∀ k, k + 1 < dL →
        ((monitorRegions m lL uL rL dL lI uI rI dI size).getD (lL + uL + rL + (k + 1)) ⟨0, 0, 0, 0⟩).x2 =
        ((monitorRegions m lL uL rL dL lI uI rI dI size).getD (lL + uL + rL + k) ⟨0, 0, 0, 0⟩).x1) := by
  refine ⟨monitorRegions_length m lL uL rL dL lI uI rI dI size,
    ?_, ?_, ?_, ?_, ?_, ?_, ?_, ?_⟩
  · intro k hk
    rw [monitorRegions_getD_left m lL uL rL dL lI uI rI dI size k hk]
    exact ⟨rfl, rfl⟩
  · intro k hk
    rw [monitorRegions_getD_left m lL uL rL dL lI uI rI dI size (k + 1) hk,
      monitorRegions_getD_left m lL uL rL dL lI uI rI dI size k (by omega)]
  · intro k hk
    rw [monitorRegions_getD_up m lL uL rL dL lI uI rI dI size k hk]
    exact ⟨rfl, rfl⟩
  · intro k hk
    rw [monitorRegions_getD_up m lL uL rL dL lI uI rI dI size (k + 1) hk,
      monitorRegions_getD_up m lL uL rL dL lI uI rI dI size k (by omega)]
  · intro k hk
    rw [monitorRegions_getD_right m lL uL rL dL lI uI rI dI size k hk]
    exact ⟨rfl, rfl⟩
  · intro k hk
    rw [monitorRegions_getD_right m lL uL rL dL lI uI rI dI size (k + 1) hk,
      monitorRegions_getD_right m lL uL rL dL lI uI rI dI size k (by omega)]
  · intro k hk
    rw [monitorRegions_getD_down m lL uL rL dL lI uI rI dI size k hk]
    exact ⟨rfl, rfl⟩
  · intro k hk
    rw [monitorRegions_getD_down m lL uL rL dL lI uI rI dI size (k + 1) hk,
      monitorRegions_getD_down m lL uL rL dL lI uI rI dI size k (by omega)]

/-- C6 witness at a 1920x1080 monitor with 4 LEDs per edge. -/
theorem C6_wiring_order_witness :
    ((monitorRegions ⟨1920, 1080⟩ 4 4 4 4 0 0 0 0 20).length = 4 + 4 + 4 + 4)
    ∧ ((monitorRegions ⟨1920, 1080⟩ 4 4 4 4 0 0 0 0 20).getD 1 ⟨0, 0, 0, 0⟩).y2 =
      ((monitorRegions ⟨1920, 1080⟩ 4 4 4 4 0 0 0 0 20).getD 0 ⟨0, 0, 0, 0⟩).y1 := by
  have h := C6_wiring_order ⟨1920, 1080⟩ 4 4 4 4 0 0 0 0 20
  exact ⟨h.1, h.2.2.1 0 (by norm_num)⟩


/-- C5 (counterexample): with indents that consume the whole width
(`100 - 60 - 60 = -20 < 0`), `calculate_regions` does not fail: it returns
the inverted top-edge rectangle `[60, 0, 40, 10]` (`x2 < x1`); and with a
zero LED count on every edge it silently returns an empty region list
instead of rejecting the configuration. -/
theorem C5_returns_inverted_rect :
    (monitorRegions ⟨100, 50⟩ 1 1 1 1 60 0 60 0 10).getD 1 ⟨0, 0, 0, 0⟩ =
      ⟨60, 0, 40, 10⟩
    ∧ (40 : ℤ) < 60
    ∧ monitorRegions ⟨100, 50⟩ 0 0 0 0 0 0 0 0 10 = [] := by
  refine ⟨?_, by norm_num, rfl⟩
  have h := monitorRegions_getD_up ⟨100, 50⟩ 1 1 1 1 60 0 60 0 10 0 (by norm_num)
    ⟨0, 0, 0, 0⟩
  norm_num at h
  have hb0 : boundaryValue (-20 : ℚ) 60 0 = 60 := by
    have := boundaryValue_int (-20 : ℚ) 0 60 0 (by norm_num)
    omega
  have hb1 : boundaryValue (-20 : ℚ) 60 1 = 40 := by
    have := boundaryValue_int (-20 : ℚ) (-20) 60 1 (by norm_num)
    omega
  simp only [List.getD_eq_getElem?_getD]
  rw [h, hb0, hb1]

/-- C5 (amended): `calculate_regions` performs no validation and cannot
fail: whenever the inner width is negative and the top LED count `n`
satisfies `n ≤ 2 |inner_width|`, the first top-edge rectangle is inverted
(`x2 < x1`) and is returned as part of the region list; a zero LED count on
every edge silently yields an empty region list for the monitor. -/
theorem C5_no_validation (m : MonitorRes) (lL uL rL dL : ℕ)
    (lI uI rI dI size : Int) (hu : 0 < uL) (_hneg : m.width - lI - rI < 0)
    (hmag : (uL : ℤ) ≤ -2 * (m.width - lI - rI)) :
    ((monitorRegions m lL uL rL dL lI uI rI dI size).getD lL ⟨0, 0, 0, 0⟩).x2 <
      ((monitorRegions m lL uL rL dL lI uI rI dI size).getD lL ⟨0, 0, 0, 0⟩).x1
    ∧ ∀ (m' : MonitorRes) (lI' uI' rI' dI' size' : Int),
        monitorRegions m' 0 0 0 0 lI' uI' rI' dI' size' = [] := by
  constructor
  · have h := monitorRegions_getD_up m lL uL rL dL lI uI rI dI size 0 hu ⟨0, 0, 0, 0⟩
    rw [Nat.add_zero] at h
    rw [h]
    dsimp only
    have hQpos : (0 : ℚ) < (uL : ℚ) := by exact_mod_cast hu
    have hstep : ((m.width - lI - rI : ℤ) : ℚ) / (uL : ℚ) ≤ -(1/2) := by
      rw [div_le_iff₀ hQpos]
      have hc : ((uL : ℤ) : ℚ) ≤ ((-2 * (m.width - lI - rI) : ℤ) : ℚ) := by
        exact_mod_cast hmag
      push_cast at hc
      push_cast
      linarith
    have h1 : rustRound (((m.width - lI - rI : ℤ) : ℚ) / (uL : ℚ) * ((0 + 1 : ℕ) : ℚ)) ≤ -1 := by
      apply rustRound_le_neg_one
      have he : ((0 + 1 : ℕ) : ℚ) = 1 := by norm_num
      rw [he, mul_one]
      exact hstep
    have h0 : rustRound (((m.width - lI - rI : ℤ) : ℚ) / (uL : ℚ) * ((0 : ℕ) : ℚ)) = 0 := by
      rw [show ((0 : ℕ) : ℚ) = 0 from by norm_num, mul_zero]
      simpa using rustRound_intCast 0
    unfold boundaryValue
    omega
  · intro m' lI' uI' rI' dI' size'
    rfl

/-- C5 witness at the degenerate 100x50, indent-60 configuration. -/
theorem C5_no_validation_witness :
    ((monitorRegions ⟨100, 50⟩ 1 1 1 1 60 0 60 0 10).getD 1 ⟨0, 0, 0, 0⟩).x2 <
      ((monitorRegions ⟨100, 50⟩ 1 1 1 1 60 0 60 0 10).getD 1 ⟨0, 0, 0, 0⟩).x1 :=
  (C5_no_validation ⟨100, 50⟩ 1 1 1 1 60 0 60 0 10 (by norm_num) (by norm_num)
    (by norm_num)).1

/-- C7 (code bug): at monitor 100x100 with one LED per edge, thickness 10
and `down_indent = 10` (all other indents 0 — a configuration satisfying
the claim's hypotheses), the first left-edge rectangle is `[0, -10, 10, 80]`:
its `y1` is negative, so it lies outside the monitor frame.  The left edge
subtracts boundary values from `inner_height` where the (correct) right
edge uses them against the full height; the spec's in-frame invariant is
violated. -/
theorem C7_left_edge_out_of_frame :
    (monitorRegions ⟨100, 100⟩ 1 1 1 1 0 0 0 10 10).getD 0 ⟨0, 0, 0, 0⟩ =
      ⟨0, -10, 10, 80⟩
    ∧ ((monitorRegions ⟨100, 100⟩ 1 1 1 1 0 0 0 10 10).getD 0 ⟨0, 0, 0, 0⟩).y1 < 0 := by
  have h := monitorRegions_getD_left ⟨100, 100⟩ 1 1 1 1 0 0 0 10 10 0 (by norm_num)
    ⟨0, 0, 0, 0⟩
  norm_num at h
  have hb0 : boundaryValue (90 : ℚ) 10 0 = 10 := by
    have := boundaryValue_int (90 : ℚ) 0 10 0 (by norm_num)
    omega
  have hb1 : boundaryValue (90 : ℚ) 10 1 = 100 := by
    have := boundaryValue_int (90 : ℚ) 90 10 1 (by norm_num)
    omega
  rw [hb0, hb1] at h
  norm_num at h
  simp only [List.getD_eq_getElem?_getD]
  exact ⟨h, by rw [h]; decide⟩

lemma redFrame_output :
    get_average_colors true (constCh 0) (constCh 0) (constCh 255)
        ((calculate_regions [⟨1920, 1080⟩] [4] [4] [4] [4] [0] [0] [0] [0] 20).getD 0 [])
        [] 1
      = List.replicate 16 (average_rgb ⟨0, 0, 0⟩ (round_rgb 255 0 0 1)) := by
  have hreg : (calculate_regions [⟨1920, 1080⟩] [4] [4] [4] [4] [0] [0] [0] [0] 20).getD 0
      ([] : List Rect) = monitorRegions ⟨1920, 1080⟩ 4 4 4 4 0 0 0 0 20 := rfl
  rw [hreg]
  have hnd := monitorRegions_nondegenerate ⟨1920, 1080⟩ 4 4 4 4 0 0 0 0 20
    (by norm_num) (by norm_num) (by norm_num) (by norm_num) (by norm_num)
  rw [show get_average_colors true (constCh 0) (constCh 0) (constCh 255)
      (monitorRegions ⟨1920, 1080⟩ 4 4 4 4 0 0 0 0 20) [] 1
      = getAverageColorsGo (constCh 0) (constCh 0) (constCh 255) [] 1
          (monitorRegions ⟨1920, 1080⟩ 4 4 4 4 0 0 0 0 20) 0 from rfl]
  rw [getAverageColorsGo_const 0 0 255 1 _ 0 hnd]
  rw [monitorRegions_length]

/-- C8 (counterexample): with the claimed configuration (1 monitor
1920x1080, 4 LEDs per edge, indent 0, thickness 20, brightness 1, constant
pure-red BGR frame, no previous output) the first emitted color is not
`(255,0,0)`: smoothing cannot be disabled, and the first tick blends the
red sample with black. -/
theorem C8_first_tick_not_red :
    (get_average_colors true (constCh 0) (constCh 0) (constCh 255)
        ((calculate_regions [⟨1920, 1080⟩] [4] [4] [4] [4] [0] [0] [0] [0] 20).getD 0 [])
        [] 1).getD 0 ⟨0, 0, 0⟩ ≠ ⟨255, 0, 0⟩ := by
  rw [redFrame_output, round_rgb_red]
  decide

/-- C8 (amended): the claimed configuration yields exactly 16 colors in
wiring order, but since smoothing is unconditional in
`get_average_colors`, each is the average of black and the rounded red
sample `(255,0,0)` — that is, 16 copies of `(127,0,0)` on the first tick —
rather than `(255,0,0)` itself. -/
theorem C8_constant_red_amended :
    get_average_colors true (constCh 0) (constCh 0) (constCh 255)
        ((calculate_regions [⟨1920, 1080⟩] [4] [4] [4] [4] [0] [0] [0] [0] 20).getD 0 [])
        [] 1
      = List.replicate 16 (average_rgb ⟨0, 0, 0⟩ ⟨255, 0, 0⟩) := by
  rw [redFrame_output, round_rgb_red]

end Ambiway
